import Mathlib

/-!
Verification development for the `chess_gui` repository (src/main.rs).

The program is an iced GUI that plays chess against a Stockfish subprocess.
The core under verification is `get_stockfish_move` (src/main.rs:267-346):
it writes a fixed UCI command sequence to the engine's stdin and then runs a
read loop that accumulates stdout chunks into a growing `output` string,
re-parses all of `output.lines()` after every chunk, extracts the evaluation
string, the principal variation and the best move, and finally unwraps the
best move with `expect("No best move found")`.

Strings are embedded as `List Char` (the streams are ASCII text); machine
integers do not occur on the verified paths.  Fallible Rust code is embedded
with `Option`; the two reachable panics of the read loop (`expect` on a
missing best move, and the slice `line[pv_idx+3..]` running past the end of
the line) are made explicit in `SessionOutcome`.
-/

namespace ChessGui

/-- Abbreviation: the characters of a string literal. -/
def str (s : String) : List Char := s.toList

/-! ## Rust `str` primitives, embedded on `List Char` -/

/-- `str::starts_with`: is `p` a prefix of `s`? -/
def startsWith : List Char → List Char → Bool
  | [], _ => true
  | _ :: _, [] => false
  | p :: ps, c :: cs => p == c && startsWith ps cs

/-- Helper for `findSub`: first index `≥ i` at which `pat` occurs in `s`
(`i` is the number of characters already dropped). -/
def findSubFrom (pat : List Char) : Nat → List Char → Option Nat
  | i, s =>
    if startsWith pat s then some i
    else
      match s with
      | [] => none
      | _ :: t => findSubFrom pat (i + 1) t

/-- `str::find(pat)`: byte index of the first occurrence of the substring
`pat` (character index here; the engine streams are ASCII). -/
def findSub (pat s : List Char) : Option Nat := findSubFrom pat 0 s

/-- Helper for `splitWs`: accumulates the current word (reversed). -/
def splitWsAux : List Char → List Char → List (List Char)
  | acc, [] => if acc.isEmpty then [] else [acc.reverse]
  | acc, c :: cs =>
    if c.isWhitespace then
      if acc.isEmpty then splitWsAux [] cs
      else acc.reverse :: splitWsAux [] cs
    else splitWsAux (c :: acc) cs

/-- `str::split_whitespace`: whitespace-separated tokens, empties skipped. -/
def splitWs (s : List Char) : List (List Char) := splitWsAux [] s

/-- `Iterator::position(|&s| s == t)` over a token list. -/
def position (t : List Char) : List (List Char) → Option Nat
  | [] => none
  | u :: us => if u == t then some 0 else (position t us).map (· + 1)

/-- Split at every newline character; always returns `count '\n' + 1` pieces
(the pieces do not contain `'\n'`). -/
def splitNl : List Char → List (List Char)
  | [] => [[]]
  | c :: cs =>
    if c = '\n' then [] :: splitNl cs
    else
      match splitNl cs with
      | [] => [[c]]
      | p :: ps => (c :: p) :: ps

/-- Strip one trailing carriage return (for pieces that ended in `"\r\n"`). -/
def stripCr (l : List Char) : List Char :=
  if l.getLast? = some '\r' then l.dropLast else l

/-- `str::lines()`: split at `'\n'`, the final line ending optional, a
trailing `'\r'` stripped from the lines that ended in `"\r\n"`. -/
def linesOf (s : List Char) : List (List Char) :=
  let ps := splitNl s
  let body := ps.dropLast.map stripCr
  match ps.getLast? with
  | some last => if last.isEmpty then body else body ++ [last]
  | none => body

/-! ## Move notation codec

`chess::ChessMove` as used by the program: a source and destination square
and an optional promotion piece.  `ChessMove::from_str` parses the UCI token
(two squares, optional promotion letter); `UciMove`'s `Display`
(src/main.rs:13-19) forwards to `ChessMove`'s `Display`, which prints the two
squares followed by the lowercase promotion letter. -/

/-- A board square: file and rank, each in `[0,7]`. -/
structure Square where
  file : Fin 8
  rank : Fin 8
deriving DecidableEq

/-- `chess::Piece`. -/
inductive Piece
  | pawn | knight | bishop | rook | queen | king
deriving DecidableEq

/-- `chess::ChessMove`. -/
structure ChessMove where
  source : Square
  dest : Square
  promotion : Option Piece
deriving DecidableEq

/-- File letter of a square (`'a' + file`). -/
def fileChar (f : Fin 8) : Char := Char.ofNat ('a'.toNat + f.val)

/-- Rank digit of a square (`'1' + rank`). -/
def rankChar (r : Fin 8) : Char := Char.ofNat ('1'.toNat + r.val)

/-- `Square`'s `Display`: file letter then rank digit. -/
def Square.toUci (sq : Square) : List Char := [fileChar sq.file, rankChar sq.rank]

/-- `Piece::to_string(Color::Black)`: the lowercase piece letter. -/
def pieceLetter : Piece → Char
  | .pawn => 'p'
  | .knight => 'n'
  | .bishop => 'b'
  | .rook => 'r'
  | .queen => 'q'
  | .king => 'k'

/-- `ChessMove`'s `Display` (the encoder behind `UciMove`): source square,
destination square, optional lowercase promotion letter. -/
def ChessMove.toUci (m : ChessMove) : List Char :=
  m.source.toUci ++ m.dest.toUci ++
    (match m.promotion with
     | none => []
     | some p => [pieceLetter p])

/-- File index of a character in `'a'..='h'`. -/
def charFileIdx (c : Char) : Option (Fin 8) :=
  if h : 'a'.toNat ≤ c.toNat ∧ c.toNat ≤ 'h'.toNat then
    some ⟨c.toNat - 'a'.toNat, by
      have ha : 'a'.toNat = 97 := by decide
      have hh : 'h'.toNat = 104 := by decide
      omega⟩
  else none

/-- Rank index of a character in `'1'..='8'`. -/
def charRankIdx (c : Char) : Option (Fin 8) :=
  if h : '1'.toNat ≤ c.toNat ∧ c.toNat ≤ '8'.toNat then
    some ⟨c.toNat - '1'.toNat, by
      have h1 : '1'.toNat = 49 := by decide
      have h8 : '8'.toNat = 56 := by decide
      omega⟩
  else none

/-- `Square::from_string`: exactly two characters, a file letter in
`'a'..='h'` and a rank digit in `'1'..='8'`. -/
def squareFromChars : List Char → Option Square
  | [c1, c2] =>
    match charFileIdx c1, charRankIdx c2 with
    | some f, some r => some ⟨f, r⟩
    | _, _ => none
  | _ => none

/-- `ChessMove::from_str`: characters `0..2` and `2..4` parsed as squares
(absent segments fail), and when the token has exactly five characters the
last one must be a promotion letter `q`, `r`, `n` or `b`. -/
def ChessMove.fromStr (s : List Char) : Option ChessMove :=
  match squareFromChars (s.take 2) with
  | none => none
  | some src =>
    match squareFromChars ((s.drop 2).take 2) with
    | none => none
    | some dst =>
      if s.length = 5 then
        match s.getLast? with
        | some 'q' => some ⟨src, dst, some .queen⟩
        | some 'r' => some ⟨src, dst, some .rook⟩
        | some 'n' => some ⟨src, dst, some .knight⟩
        | some 'b' => some ⟨src, dst, some .bishop⟩
        | _ => none
      else some ⟨src, dst, none⟩

/-! ## The read loop of `get_stockfish_move` (src/main.rs:290-342)

The loop owns four mutable variables: the growing `output` string and the
running `evaluation`, `pv` and `best_move`.  After every chunk it re-parses
all of `output.lines()` from scratch, so the three running variables are
modelled as a state threaded through the lines. -/

/-- The running variables of the read loop (minus `output`). -/
structure LoopSt where
  evaluation : List Char
  pv : List ChessMove
  bestMove : Option ChessMove
deriving DecidableEq

/-- The loop state at the top of `get_stockfish_move`'s read loop. -/
def initSt : LoopSt := ⟨[], [], none⟩

/-- The `score cp` block (src/main.rs:304-316): when the substring
`"score cp"` occurs in the line, find the first `"cp"` token, and when a
token follows it rebuild `evaluation` as `"Evaluation: "` followed by `'≥'`
if the tokens contain `"lowerbound"`, by `'≤'` if they contain
`"upperbound"`, and by the token after `"cp"`. -/
def scoreStep (st : LoopSt) (line : List Char) : LoopSt :=
  match findSub (str "score cp") line with
  | some _ =>
    let parts := splitWs line
    match position (str "cp") parts with
    | some cpIdx =>
      match parts[cpIdx + 1]? with
      | some cp =>
        { st with
          evaluation :=
            str "Evaluation: " ++
              (if parts.contains (str "lowerbound") then ['≥']
               else if parts.contains (str "upperbound") then ['≤']
               else []) ++ cp }
      | none => st
    | none => st
  | none => st

/-- The `pv` block (src/main.rs:317-322): when the substring `"pv"` occurs
at index `i`, replace `pv` by the decodable tokens of `line[i+3..]`.
The Rust slice panics when `i + 3` exceeds the line length; that panic is
the `none` result. -/
def pvStep (st : LoopSt) (line : List Char) : Option LoopSt :=
  match findSub (str "pv") line with
  | some pvIdx =>
    if pvIdx + 3 ≤ line.length then
      some { st with
              pv := (splitWs (line.drop (pvIdx + 3))).filterMap ChessMove.fromStr }
    else none
  | none => some st

/-- Result of processing one line of `output.lines()`: a panic, a normal
continuation, or the `break` taken on a `bestmove` line. -/
inductive StepRes
  | panicked
  | cont (st : LoopSt)
  | brk (st : LoopSt)
deriving DecidableEq

/-- The body of `for line in output.lines()` (src/main.rs:302-330): lines
starting with `"info"` go through the score and pv blocks; a line starting
with `"bestmove"` stores the decoded second token and breaks. -/
def processLine (st : LoopSt) (line : List Char) : StepRes :=
  let afterInfo : Option LoopSt :=
    if startsWith (str "info") line then pvStep (scoreStep st line) line
    else some st
  match afterInfo with
  | none => .panicked
  | some st' =>
    if startsWith (str "bestmove") line then
      .brk { st' with bestMove := ((splitWs line)[1]?).bind ChessMove.fromStr }
    else .cont st'

/-- The whole inner `for` loop: process the lines in order, stopping at the
first `bestmove` line; `none` is the pv-slice panic. -/
def foldLines (st : LoopSt) : List (List Char) → Option LoopSt
  | [] => some st
  | l :: ls =>
    match processLine st l with
    | .panicked => none
    | .brk st' => some st'
    | .cont st' => foldLines st' ls

/-- The outer read loop (src/main.rs:297-335): append the next chunk to
`output`, re-parse all of `output.lines()`, stop when a best move was
resolved or when the stream closes (a zero-byte read, i.e. an empty chunk or
the end of the chunk list).  `none` is the pv-slice panic. -/
def runChunks (st : LoopSt) (output : List Char) :
    List (List Char) → Option (LoopSt × List Char)
  | [] => some (st, output)
  | c :: cs =>
    if c.isEmpty then some (st, output)
    else
      match foldLines st (linesOf (output ++ c)) with
      | none => none
      | some st' =>
        if st'.bestMove.isSome then some (st', output ++ c)
        else runChunks st' (output ++ c) cs

/-- What the async block of `get_stockfish_move` does in the end: deliver
the tuple `(best_move, evaluation, pv)`, or panic — in the pv slice, or in
`best_move.expect("No best move found")` (src/main.rs:339). -/
inductive SessionOutcome
  | ok (move : ChessMove) (evaluation : List Char) (pv : List ChessMove)
  | panicSlice
  | panicNoBestMove
deriving DecidableEq

/-- The engine session on a given sequence of stdout chunks. -/
def runSession (chunks : List (List Char)) : SessionOutcome :=
  match runChunks initSt [] chunks with
  | none => .panicSlice
  | some (st, _) =>
    match st.bestMove with
    | some m => .ok m st.evaluation st.pv
    | none => .panicNoBestMove

/-! ## The startup command write (src/main.rs:276-288)

The commands are built by one `format!` (Rust's trailing `\` joins the
continuation lines, stripping the leading whitespace) and sent by a single
`write_all` followed by `flush`, both awaited before the read loop starts. -/

/-- The `commands` string of src/main.rs:277-284 with `<FEN>` substituted. -/
def startupCommands (fen : List Char) : List Char :=
  str "uci\nisready\nucinewgame\nposition fen " ++ fen ++
    str "\nsetoption name Skill Level value 20\nsetoption name Contempt value 100\nsetoption name UCI_LimitStrength value false\ngo movetime 5000\n"

/-- One observable side effect of the session's async block. -/
inductive SessEvent
  | spawnProc
  | writeStdin (s : List Char)
  | flushStdin
  | readChunk (c : List Char)
deriving DecidableEq

/-- The reads the loop actually performs: every chunk until (and including)
the one on which the loop stops — a zero-byte read, a resolved best move, or
the pv-slice panic. -/
def readEvents (st : LoopSt) (output : List Char) :
    List (List Char) → List SessEvent
  | [] => []
  | c :: cs =>
    .readChunk c ::
      (if c.isEmpty then []
       else
         match foldLines st (linesOf (output ++ c)) with
         | none => []
         | some st' =>
           if st'.bestMove.isSome then []
           else readEvents st' (output ++ c) cs)

/-- The effect trace of `get_stockfish_move`'s async block: spawn, one write
of the whole command string, one flush, then the reads. -/
def sessionTrace (fen : List Char) (chunks : List (List Char)) : List SessEvent :=
  [.spawnProc, .writeStdin (startupCommands fen), .flushStdin] ++
    readEvents initSt [] chunks

/-! ## `ChessApp::update` (src/main.rs:70-120)

The chess-rules library (`chess::Game`) is an external collaborator; the
spec treats it as a black box providing `legal`, `make_move` (mutate and
report acceptance — embedded as `Option` over a fresh state), `result` and a
fresh game.  `update` is embedded parametrically over that interface. -/

/-- `chess::Color`. -/
inductive ChessColor
  | white | black
deriving DecidableEq

/-- `chess::GameResult`. -/
inductive GameResult
  | whiteCheckmates | blackCheckmates | stalemate | drawAccepted
  | whiteResigns | blackResigns | drawDeclared
deriving DecidableEq

/-- The black-box rules engine interface used by `ChessApp::update`. -/
structure RulesEngine (G : Type) where
  legal : G → ChessMove → Bool
  makeMove : G → ChessMove → Option G
  result : G → Option GameResult
  newGame : G

/-- The `ChessApp` state (src/main.rs:25-33). -/
structure ChessApp (G : Type) where
  game : G
  selectedSquare : Option Square
  stockfishPath : List Char
  currentTurn : ChessColor
  status : List Char
  engineEvaluation : List Char
  principalVariation : List ChessMove

/-- The `Message` enum (src/main.rs:35-40). -/
inductive Message
  | squareSelected (sq : Square)
  | engineMove (mv : ChessMove) (eval : List Char) (pv : List ChessMove)
  | newGame

/-- The `iced::Command` returned by `update`: nothing, or the
`get_stockfish_move(path, game)` task. -/
inductive AppCommand (G : Type)
  | idle
  | engineRequest (path : List Char) (game : G)

/-- `ChessApp::update`: early return on a concluded game, then the three
message branches exactly as in src/main.rs:70-120. -/
def ChessApp.update {G : Type} (re : RulesEngine G) (app : ChessApp G)
    (msg : Message) : ChessApp G × AppCommand G :=
  if (re.result app.game).isSome then (app, .idle)
  else
    match msg with
    | .squareSelected sq =>
      if app.currentTurn = .white then
        match app.selectedSquare with
        | some selected =>
          let mv : ChessMove := ⟨selected, sq, none⟩
          if re.legal app.game mv then
            match re.makeMove app.game mv with
            | some g' =>
              ({ app with
                  game := g'
                  currentTurn := .black
                  status := str "Stockfish is thinking..."
                  selectedSquare := none },
               .engineRequest app.stockfishPath g')
            | none => ({ app with selectedSquare := some sq }, .idle)
          else ({ app with selectedSquare := some sq }, .idle)
        | none => ({ app with selectedSquare := some sq }, .idle)
      else (app, .idle)
    | .engineMove mv eval pv =>
      match re.makeMove app.game mv with
      | some g' =>
        ({ app with
            game := g'
            currentTurn := .white
            status := str "White's turn"
            engineEvaluation := eval
            principalVariation := pv },
         .idle)
      | none => (app, .idle)
    | .newGame =>
      ({ app with
          game := re.newGame
          currentTurn := .white
          selectedSquare := none
          status := str "New game - White's turn"
          engineEvaluation := []
          principalVariation := [] },
       .idle)

/-! ## Definitions taken from the spec's words

These follow the specification text (not the source); they exist only to be
compared with the source-derived definitions above. -/

/-- Modelled from the spec: an integer token — optional leading `'-'`, then
one or more digits (the `<N>` of `score cp <N>` / `score mate <N>`). -/
def isIntToken (t : List Char) : Bool :=
  match t with
  | '-' :: ds => !ds.isEmpty && ds.all Char.isDigit
  | ds => !ds.isEmpty && ds.all Char.isDigit

/-- Modelled from the spec: a "scored" `info` line — it begins with `info`
and its tokens contain the sequence `score cp <N>` or `score mate <N>`. -/
def specScoredInfoLine (l : List Char) : Bool :=
  startsWith (str "info") l &&
    (let ts := splitWs l
     (List.range ts.length).any fun i =>
       ts[i]? = some (str "score") &&
       (ts[i+1]? = some (str "cp") || ts[i+1]? = some (str "mate")) &&
       (match ts[i+2]? with
        | some n => isIntToken n
        | none => false))

/-- Modelled from the spec: an `info` line with a pv section — it begins
with `info` and its tokens contain the token `pv`. -/
def specPvSectionLine (l : List Char) : Bool :=
  startsWith (str "info") l && (splitWs l).contains (str "pv")

/-- Modelled from the spec: the pv move list of a line — every
whitespace-separated token after the token `pv`, decoded with the codec,
undecodable tokens dropped. -/
def specPvMoves (l : List Char) : List ChessMove :=
  match position (str "pv") (splitWs l) with
  | some i => ((splitWs l).drop (i + 1)).filterMap ChessMove.fromStr
  | none => []

/-- A bound qualifier of an evaluation report. -/
inductive Bound
  | exact
  | atLeast
  | atMost
deriving DecidableEq

/-- Modelled from the spec (claim C6's wording): the bound qualifier is
at-least when the token `lowerbound` appears after the `score` token,
at-most when `upperbound` appears, and exact otherwise. -/
def specBoundAfterScore (l : List Char) : Bound :=
  let ts := splitWs l
  match position (str "score") ts with
  | some si =>
    if (ts.drop (si + 1)).contains (str "lowerbound") then .atLeast
    else if ts.contains (str "upperbound") then .atMost
    else .exact
  | none =>
    if ts.contains (str "upperbound") then .atMost else .exact

/-- The bound qualifier of the amended claim C6: membership of the tokens
anywhere in the line, `lowerbound` checked first — as the code does. -/
def boundOfTokens (ts : List (List Char)) : Bound :=
  if ts.contains (str "lowerbound") then .atLeast
  else if ts.contains (str "upperbound") then .atMost
  else .exact

/-- The evaluation-string fragment the code prints for a bound. -/
def boundChars : Bound → List Char
  | .exact => []
  | .atLeast => ['≥']
  | .atMost => ['≤']

/-! ## Per-line analysis of the read loop

Each variable mutated by the loop body is a function of the line alone:
these functions name the value a line assigns (or `none` for "keeps the
previous value"), and the loop body is proved equal to them below. -/

/-- Does the line take the `bestmove` branch? -/
def isBestLine (l : List Char) : Bool := startsWith (str "bestmove") l

/-- Does processing this line panic in the pv slice? -/
def panicsLine (l : List Char) : Bool :=
  startsWith (str "info") l &&
    (match findSub (str "pv") l with
     | some i => decide (l.length < i + 3)
     | none => false)

/-- The evaluation string the score block would assign for this line. -/
def scoreValOf (l : List Char) : Option (List Char) :=
  match findSub (str "score cp") l with
  | some _ =>
    let parts := splitWs l
    match position (str "cp") parts with
    | some cpIdx =>
      match parts[cpIdx + 1]? with
      | some cp =>
        some (str "Evaluation: " ++
          (if parts.contains (str "lowerbound") then ['≥']
           else if parts.contains (str "upperbound") then ['≤']
           else []) ++ cp)
      | none => none
    | none => none
  | none => none

/-- The evaluation string this line assigns in the loop (`info` lines only). -/
def evaOf (l : List Char) : Option (List Char) :=
  if startsWith (str "info") l then scoreValOf l else none

/-- The principal variation this line assigns in the loop (`info` lines with
an in-bounds `"pv"` occurrence only). -/
def pvValOf (l : List Char) : Option (List ChessMove) :=
  if startsWith (str "info") l then
    match findSub (str "pv") l with
    | some i =>
      if i + 3 ≤ l.length then
        some ((splitWs (l.drop (i + 3))).filterMap ChessMove.fromStr)
      else none
    | none => none
  else none

/-- The best move a `bestmove` line resolves: its second token, decoded. -/
def bmOf (l : List Char) : Option ChessMove :=
  ((splitWs l)[1]?).bind ChessMove.fromStr

/-- Closed form of the inner `for` loop: the lines before the first
`bestmove` line are scanned for a panic; `evaluation` and `pv` become the
last values assigned by those lines (or keep their previous values); the
first `bestmove` line, if any, resolves the best move. -/
def procLines (st : LoopSt) (L : List (List Char)) : Option LoopSt :=
  let pre := L.takeWhile fun l => !isBestLine l
  if pre.any panicsLine then none
  else
    let st' : LoopSt :=
      { st with
        evaluation := ((pre.filterMap evaOf).getLast?).getD st.evaluation
        pv := ((pre.filterMap pvValOf).getLast?).getD st.pv }
    match (L.dropWhile fun l => !isBestLine l).head? with
    | some lb => some { st' with bestMove := bmOf lb }
    | none => some st'

/-- The delivery step of the session: the pv-slice panic, the tuple, or the
`expect` panic on a missing best move. -/
def finishOutcome : Option (LoopSt × List Char) → SessionOutcome
  | none => .panicSlice
  | some (st, _) =>
    match st.bestMove with
    | some m => .ok m st.evaluation st.pv
    | none => .panicNoBestMove

/-- The session outcome when the whole transcript arrives as one chunk. -/
def oneShot (X : List Char) : SessionOutcome :=
  match foldLines initSt (linesOf X) with
  | none => .panicSlice
  | some st =>
    match st.bestMove with
    | some m => .ok m st.evaluation st.pv
    | none => .panicNoBestMove

/-- Join lines into a stream, each line newline-terminated. -/
def joinLines (L : List (List Char)) : List Char :=
  (L.map (fun l => l ++ ['\n'])).flatten

/-- Recognizer for read events of a session trace. -/
def isReadEvent : SessEvent → Bool
  | .readChunk _ => true
  | _ => false

/-- A rules engine over a trivial game state that rejects every move and
reports the game as not concluded (for concrete instantiations). -/
def rejectAll : RulesEngine Unit where
  legal := fun _ _ => false
  makeMove := fun _ _ => none
  result := fun _ => none
  newGame := ()

/-- A rules engine over a trivial game state whose game has concluded. -/
def concludedRE : RulesEngine Unit where
  legal := fun _ _ => false
  makeMove := fun _ _ => none
  result := fun _ => some .stalemate
  newGame := ()

/-- A concrete application state waiting on the engine. -/
def sampleApp : ChessApp Unit where
  game := ()
  selectedSquare := none
  stockfishPath := str "/usr/local/bin/stockfish"
  currentTurn := .black
  status := str "Stockfish is thinking..."
  engineEvaluation := []
  principalVariation := []

/-- Decoding the encoding of a square recovers the square. -/
theorem squareFromChars_toUci (sq : Square) :
    squareFromChars sq.toUci = some sq := by
  obtain ⟨f, r⟩ := sq
  revert f r
  decide

/-- A line cannot start with both `"info"` and `"bestmove"`. -/
theorem isBestLine_eq_false_of_info {l : List Char}
    (h : startsWith (str "info") l = true) : isBestLine l = false := by
  cases l with
  | nil => exact absurd h (by decide)
  | cons c cs =>
    have hc : ('i' == c) = true := by
      have e : startsWith (str "info") (c :: cs) =
          (('i' == c) && startsWith (str "nfo") cs) := rfl
      rw [e] at h
      exact (Bool.and_eq_true _ _).mp h |>.1
    have : c = 'i' := (beq_iff_eq.mp hc).symm
    subst this
    rfl

/-- A `bestmove` line does not start with `"info"`. -/
theorem not_info_of_isBestLine {l : List Char}
    (h : isBestLine l = true) : startsWith (str "info") l = false := by
  cases l with
  | nil => exact absurd h (by decide)
  | cons c cs =>
    have hc : ('b' == c) = true := by
      have e : isBestLine (c :: cs) =
          (('b' == c) && startsWith (str "estmove") cs) := rfl
      rw [e] at h
      exact (Bool.and_eq_true _ _).mp h |>.1
    have : c = 'b' := (beq_iff_eq.mp hc).symm
    subst this
    rfl

/-- A panicking line is an `info` line, so not a `bestmove` line. -/
theorem isBestLine_eq_false_of_panics {l : List Char}
    (h : panicsLine l = true) : isBestLine l = false :=
  isBestLine_eq_false_of_info ((Bool.and_eq_true _ _).mp h).1

/-- The score block only rewrites `evaluation`, with a value that depends on
the line alone. -/
theorem scoreStep_eq (st : LoopSt) (l : List Char) :
    scoreStep st l = { st with evaluation := (scoreValOf l).getD st.evaluation } := by
  unfold scoreStep scoreValOf
  cases h1 : findSub (str "score cp") l with
  | none => rfl
  | some i =>
    simp only
    cases h2 : position (str "cp") (splitWs l) with
    | none => rfl
    | some cpIdx =>
      simp only
      cases h3 : (splitWs l)[cpIdx + 1]? with
      | none => rfl
      | some cp => rfl

/-- The loop body, characterized through the per-line functions. -/
theorem processLine_eq (st : LoopSt) (l : List Char) :
    processLine st l =
      if panicsLine l then .panicked
      else if isBestLine l then .brk { st with bestMove := bmOf l }
      else .cont { st with
        evaluation := (evaOf l).getD st.evaluation
        pv := (pvValOf l).getD st.pv } := by
  unfold processLine
  cases hinfo : startsWith (str "info") l with
  | false =>
    have hpan : panicsLine l = false := by simp [panicsLine, hinfo]
    simp only [hpan, Bool.false_eq_true, if_false, if_neg]
    cases hbest : isBestLine l with
    | true =>
      simp only [isBestLine] at hbest
      simp [hbest, bmOf]
    | false =>
      simp only [isBestLine] at hbest
      simp [hbest, evaOf, pvValOf, hinfo]
  | true =>
    have hbest : isBestLine l = false := isBestLine_eq_false_of_info hinfo
    simp only [hinfo, if_true, hbest, Bool.false_eq_true, if_false]
    cases hpv : findSub (str "pv") l with
    | none =>
      have hpan : panicsLine l = false := by simp [panicsLine, hinfo, hpv]
      have hbest' : startsWith (str "bestmove") l = false := hbest
      simp only [hpan, Bool.false_eq_true, if_false]
      rw [scoreStep_eq]
      simp [pvStep, hpv, hbest', evaOf, pvValOf, hinfo]
    | some i =>
      rcases Nat.lt_or_ge l.length (i + 3) with hlt | hge
      · have hpan : panicsLine l = true := by
          simp [panicsLine, hinfo, hpv, hlt]
        have : ¬ (i + 3 ≤ l.length) := by omega
        simp only [hpan, if_true]
        rw [scoreStep_eq]
        simp [pvStep, hpv, this]
      · have hpan : panicsLine l = false := by
          simp only [panicsLine, hinfo, Bool.true_and, hpv]
          simp [Nat.not_lt.mpr hge]
        have hbest' : startsWith (str "bestmove") l = false := hbest
        simp only [hpan, Bool.false_eq_true, if_false]
        rw [scoreStep_eq]
        simp [pvStep, hpv, hge, hbest', evaOf, pvValOf, hinfo]

/-- `getD` through `getLast?` of a `cons`: the head only matters when the
tail contributes nothing. -/
theorem getD_getLast?_cons {β : Type} :
    ∀ (ys : List β) (v d : β), ((v :: ys).getLast?).getD d = (ys.getLast?).getD v := by
  intro ys
  induction ys with
  | nil => intro v d; rfl
  | cons y ys ih =>
    intro v d
    rw [List.getLast?_cons_cons, ih y d, ih y v]

/-- `getD` through `getLast?` of a `filterMap` over a `cons`. -/
theorem getD_getLast?_filterMap_cons {α β : Type} (f : α → Option β) (a : α)
    (xs : List α) (d : β) :
    (((a :: xs).filterMap f).getLast?).getD d =
      ((xs.filterMap f).getLast?).getD ((f a).getD d) := by
  cases h : f a with
  | none => rw [List.filterMap_cons_none h]; rfl
  | some v => rw [List.filterMap_cons_some h, getD_getLast?_cons]; rfl

/-- The inner `for` loop equals its closed form. -/
theorem foldLines_eq (st : LoopSt) (L : List (List Char)) :
    foldLines st L = procLines st L := by
  induction L generalizing st with
  | nil => rfl
  | cons l ls ih =>
    rw [foldLines, processLine_eq]
    cases hpan : panicsLine l with
    | true =>
      have hb : isBestLine l = false := isBestLine_eq_false_of_panics hpan
      simp [procLines, hb, hpan]
    | false =>
      cases hb : isBestLine l with
      | true => simp [procLines, hb, hpan]
      | false =>
        simp only [Bool.false_eq_true, if_false]
        rw [ih]
        have htw : List.takeWhile (fun x => !isBestLine x) (l :: ls)
            = l :: List.takeWhile (fun x => !isBestLine x) ls := by
          rw [List.takeWhile_cons_of_pos]
          simp [hb]
        have hdw : List.dropWhile (fun x => !isBestLine x) (l :: ls)
            = List.dropWhile (fun x => !isBestLine x) ls := by
          rw [List.dropWhile_cons_of_pos]
          simp [hb]
        simp only [procLines, htw, hdw, List.any_cons, hpan, Bool.false_or]
        cases hany : ((ls.takeWhile fun x => !isBestLine x).any panicsLine) with
        | true => simp [hany]
        | false =>
          simp only [hany, Bool.false_eq_true, if_false]
          rw [getD_getLast?_filterMap_cons, getD_getLast?_filterMap_cons]

/-! ## Structure of `linesOf` under concatenation -/

/-- `splitNl` never returns the empty list. -/
theorem splitNl_ne_nil (s : List Char) : splitNl s ≠ [] := by
  cases s with
  | nil => simp [splitNl]
  | cons c cs =>
    rw [splitNl]
    by_cases h : c = '\n'
    · simp [h]
    · simp only [h, if_false]
      cases h2 : splitNl cs <;> simp

/-- `splitNl` after a leading newline. -/
theorem splitNl_cons_newline (s : List Char) : splitNl ('\n' :: s) = [] :: splitNl s := by
  rw [splitNl]
  simp

/-- `splitNl` after a leading non-newline character. -/
theorem splitNl_cons_other {c : Char} (h : c ≠ '\n') (s : List Char) :
    ∀ {p ps}, splitNl s = p :: ps → splitNl (c :: s) = (c :: p) :: ps := by
  intro p ps hs
  rw [splitNl]
  simp only [h, if_false, hs]

/-- A string ending in a newline splits into at least two pieces, the last
of them empty. -/
theorem splitNl_ends_newline :
    ∀ {a : List Char}, a.getLast? = some '\n' →
      ∃ p ps, splitNl a = p :: ps ∧ ps ≠ [] ∧ (p :: ps).getLast? = some [] := by
  intro a
  induction a with
  | nil => intro h; simp at h
  | cons x a' ih =>
    intro h
    cases ha' : a' with
    | nil =>
      subst ha'
      have hx : x = '\n' := by simpa using h
      subst hx
      exact ⟨[], [[]], splitNl_cons_newline [], by simp, rfl⟩
    | cons y t =>
      have h' : a'.getLast? = some '\n' := by
        rw [ha'] at h ⊢
        rw [List.getLast?_cons_cons] at h
        exact h
      rw [← ha'] at *
      obtain ⟨p, ps, hsp, hne, hlast⟩ := ih h'
      by_cases hx : x = '\n'
      · subst hx
        refine ⟨[], p :: ps, splitNl_cons_newline a' ▸ by rw [hsp], by simp, ?_⟩
        rw [List.getLast?_cons_cons]
        exact hlast
      · refine ⟨x :: p, ps, splitNl_cons_other hx a' hsp, hne, ?_⟩
        cases ps with
        | nil => exact absurd rfl hne
        | cons q qs =>
          rw [List.getLast?_cons_cons] at hlast ⊢
          exact hlast

/-- Splitting a concatenation whose first part ends in a newline. -/
theorem splitNl_append {a : List Char} (b : List Char)
    (h : a.getLast? = some '\n') :
    splitNl (a ++ b) = (splitNl a).dropLast ++ splitNl b := by
  induction a with
  | nil => simp at h
  | cons x a' ih =>
    cases ha' : a' with
    | nil =>
      subst ha'
      have hx : x = '\n' := by simpa using h
      subst hx
      rw [List.cons_append, List.nil_append, splitNl_cons_newline]
      rfl
    | cons y t =>
      have h' : a'.getLast? = some '\n' := by
        rw [ha'] at h ⊢
        rw [List.getLast?_cons_cons] at h
        exact h
      rw [← ha'] at *
      have ihab := ih h'
      obtain ⟨p, ps, hsp, hne, _⟩ := splitNl_ends_newline h'
      by_cases hx : x = '\n'
      · subst hx
        rw [List.cons_append, splitNl_cons_newline, splitNl_cons_newline, ihab,
          List.dropLast_cons_of_ne_nil (splitNl_ne_nil a'), List.cons_append]
      · obtain ⟨q, qs, hq⟩ : ∃ q qs, splitNl (a' ++ b) = q :: qs := by
          cases hab : splitNl (a' ++ b) with
          | nil => exact absurd hab (splitNl_ne_nil _)
          | cons q qs => exact ⟨q, qs, rfl⟩
        rw [List.cons_append, splitNl_cons_other hx _ hq, splitNl_cons_other hx _ hsp,
          List.dropLast_cons_of_ne_nil hne, List.cons_append]
        have : q :: qs = (p :: List.dropLast ps) ++ splitNl b := by
          rw [← hq, ihab, hsp, List.dropLast_cons_of_ne_nil hne]
        rw [List.cons_append] at this
        cases this
        rfl

/-- `str::lines` distributes over a concatenation whose first part ends in
a newline — the heart of chunk-boundary invariance at line boundaries. -/
theorem linesOf_append {a : List Char} (b : List Char)
    (h : a.getLast? = some '\n') :
    linesOf (a ++ b) = linesOf a ++ linesOf b := by
  obtain ⟨p, ps, hsp, hne, hlast⟩ := splitNl_ends_newline h
  obtain ⟨q, qs, hq⟩ : ∃ q qs, splitNl b = q :: qs := by
    cases hb : splitNl b with
    | nil => exact absurd hb (splitNl_ne_nil _)
    | cons q qs => exact ⟨q, qs, rfl⟩
  have hA : linesOf a = ((p :: ps).dropLast).map stripCr := by
    rw [linesOf, hsp]
    simp only [hlast]
    rfl
  have hsplit : splitNl (a ++ b) = (p :: ps).dropLast ++ (q :: qs) := by
    rw [splitNl_append b h, hsp, hq]
  rw [linesOf, hsplit, hA]
  have hglast : ((p :: ps).dropLast ++ (q :: qs)).getLast? = (q :: qs).getLast? := by
    rw [List.getLast?_append]
    obtain ⟨w, hw⟩ : ∃ w, (q :: qs).getLast? = some w := by
      cases hqq : (q :: qs).getLast? with
      | none => simp at hqq
      | some w => exact ⟨w, rfl⟩
    rw [hw]
    rfl
  have hdl : ((p :: ps).dropLast ++ (q :: qs)).dropLast
      = (p :: ps).dropLast ++ (q :: qs).dropLast :=
    List.dropLast_append_of_ne_nil _ (by simp)
  rw [hglast, hdl, List.map_append]
  rw [linesOf, hq]
  cases hqq : (q :: qs).getLast? with
  | none => simp at hqq
  | some w =>
    by_cases hw : w.isEmpty
    · simp [hw]
    · simp [hw, List.append_assoc]

/-! ## `takeWhile` / `dropWhile` over concatenations -/

/-- When every element of the first part passes, `takeWhile` crosses it. -/
theorem takeWhile_append_all {α : Type} {p : α → Bool} :
    ∀ {A : List α}, (∀ x ∈ A, p x = true) →
      ∀ B, (A ++ B).takeWhile p = A ++ B.takeWhile p := by
  intro A
  induction A with
  | nil => intro _ B; rfl
  | cons a A ih =>
    intro h B
    rw [List.cons_append, List.takeWhile_cons_of_pos (h a (by simp)), ih
      (fun x hx => h x (by simp [hx])) B, List.cons_append]

/-- When every element of the first part passes, `dropWhile` crosses it. -/
theorem dropWhile_append_all {α : Type} {p : α → Bool} :
    ∀ {A : List α}, (∀ x ∈ A, p x = true) →
      ∀ B, (A ++ B).dropWhile p = B.dropWhile p := by
  intro A
  induction A with
  | nil => intro _ B; rfl
  | cons a A ih =>
    intro h B
    rw [List.cons_append, List.dropWhile_cons_of_pos (h a (by simp)),
      ih (fun x hx => h x (by simp [hx])) B]

/-- When `dropWhile` already stops inside the first part, appending more
does not change `takeWhile`. -/
theorem takeWhile_append_stop {α : Type} {p : α → Bool} :
    ∀ {A : List α}, A.dropWhile p ≠ [] →
      ∀ B, (A ++ B).takeWhile p = A.takeWhile p := by
  intro A
  induction A with
  | nil => intro h; exact absurd rfl h
  | cons a A ih =>
    intro h B
    cases hp : p a with
    | true =>
      rw [List.dropWhile_cons_of_pos hp] at h
      rw [List.cons_append, List.takeWhile_cons_of_pos hp,
        List.takeWhile_cons_of_pos hp, ih h B]
    | false =>
      rw [List.cons_append, List.takeWhile_cons_of_neg (by simp [hp]),
        List.takeWhile_cons_of_neg (by simp [hp])]

/-- When `dropWhile` already stops inside the first part, appending more
just appends to `dropWhile`. -/
theorem dropWhile_append_stop {α : Type} {p : α → Bool} :
    ∀ {A : List α}, A.dropWhile p ≠ [] →
      ∀ B, (A ++ B).dropWhile p = A.dropWhile p ++ B := by
  intro A
  induction A with
  | nil => intro h; exact absurd rfl h
  | cons a A ih =>
    intro h B
    cases hp : p a with
    | true =>
      rw [List.dropWhile_cons_of_pos hp] at h
      rw [List.cons_append, List.dropWhile_cons_of_pos hp,
        List.dropWhile_cons_of_pos hp, ih h B]
    | false =>
      rw [List.cons_append, List.dropWhile_cons_of_neg (by simp [hp]),
        List.dropWhile_cons_of_neg (by simp [hp]), List.cons_append]

/-- When `dropWhile` leaves nothing, every element passed. -/
theorem all_of_dropWhile_nil {α : Type} {p : α → Bool} :
    ∀ {A : List α}, A.dropWhile p = [] → ∀ x ∈ A, p x = true := by
  intro A
  induction A with
  | nil => intro _ x hx; exact absurd hx (by simp)
  | cons a A ih =>
    intro h x hx
    cases hp : p a with
    | false => rw [List.dropWhile_cons_of_neg (by simp [hp])] at h; exact absurd h (by simp)
    | true =>
      rw [List.dropWhile_cons_of_pos hp] at h
      rcases List.mem_cons.mp hx with rfl | hx'
      · exact hp
      · exact ih h x hx'

/-- When `dropWhile` leaves nothing, `takeWhile` is the whole list. -/
theorem takeWhile_of_dropWhile_nil {α : Type} {p : α → Bool} {A : List α}
    (h : A.dropWhile p = []) : A.takeWhile p = A := by
  have := List.takeWhile_append_dropWhile p (l := A)
  rw [h, List.append_nil] at this
  exact this

/-- `getD` with a default that is itself the same `getD`. -/
theorem getD_getD_self {α : Type} (o : Option α) (d : α) :
    o.getD (o.getD d) = o.getD d := by
  cases o <;> rfl

/-- `getD` over an append absorbs a default built from the first part. -/
theorem getD_getLast?_append_absorb {α : Type} (A B : List α) (d : α) :
    ((A ++ B).getLast?).getD ((A.getLast?).getD d) = ((A ++ B).getLast?).getD d := by
  rw [List.getLast?_append]
  cases hB : B.getLast? with
  | some w => rfl
  | none =>
    simp only [Option.none_or]
    exact getD_getD_self _ d

/-! ## Extension and absorption for `procLines` -/

/-- The inner loop panics exactly when some line before the first `bestmove`
line panics — independently of the loop state. -/
theorem procLines_eq_none_iff (st : LoopSt) (L : List (List Char)) :
    procLines st L = none ↔
      ((L.takeWhile fun l => !isBestLine l).any panicsLine) = true := by
  unfold procLines
  by_cases hp : ((L.takeWhile fun l => !isBestLine l).any panicsLine) = true
  · simp [hp]
  · cases hd : (L.dropWhile fun l => !isBestLine l).head? <;> simp [hp, hd]

/-- A panicking prefix still panics after appending more lines. -/
theorem procLines_panic_ext {st : LoopSt} {L : List (List Char)}
    (h : procLines st L = none) (st' : LoopSt) (M : List (List Char)) :
    procLines st' (L ++ M) = none := by
  rw [procLines_eq_none_iff] at h ⊢
  by_cases hdl : (L.dropWhile fun l => !isBestLine l) = []
  · rw [takeWhile_append_all (all_of_dropWhile_nil hdl) M, List.any_append]
    rw [takeWhile_of_dropWhile_nil hdl] at h
    rw [h]
    rfl
  · rw [takeWhile_append_stop hdl M]
    exact h

/-- A run of the inner loop that already resolved a best move is untouched
by appending more lines. -/
theorem procLines_brk_ext {st0 st : LoopSt} {L : List (List Char)}
    (h0 : st0.bestMove = none) (h : procLines st0 L = some st)
    (hm : st.bestMove.isSome = true) (M : List (List Char)) :
    procLines st0 (L ++ M) = some st := by
  have hp : ((L.takeWhile fun l => !isBestLine l).any panicsLine) = false := by
    by_contra hh
    rw [Bool.not_eq_false] at hh
    rw [(procLines_eq_none_iff st0 L).mpr hh] at h
    exact absurd h (by simp)
  by_cases hdl : (L.dropWhile fun l => !isBestLine l) = []
  · exfalso
    simp only [procLines, hp, Bool.false_eq_true, if_false, hdl, List.head?_nil] at h
    have hrec := Option.some.inj h
    rw [← hrec] at hm
    simp only [h0] at hm
    exact absurd hm (by simp)
  · obtain ⟨lb, tl, hcons⟩ : ∃ lb tl, (L.dropWhile fun l => !isBestLine l) = lb :: tl := by
      cases hx : (L.dropWhile fun l => !isBestLine l) with
      | nil => exact absurd hx hdl
      | cons lb tl => exact ⟨lb, tl, rfl⟩
    simp only [procLines, hp, Bool.false_eq_true, if_false, hcons, List.head?_cons] at h
    simp only [procLines, takeWhile_append_stop hdl M, dropWhile_append_stop hdl M,
      hcons, List.cons_append, List.head?_cons, hp, Bool.false_eq_true, if_false]
    exact h

/-- Absorption: restarting the inner loop from the state it produced on a
prefix of the lines gives the same result as restarting from the original
state — re-parsing all of `output.lines()` each chunk is self-correcting. -/
theorem procLines_absorb (st0 st : LoopSt) (L M : List (List Char))
    (h : procLines st0 L = some st) :
    procLines st (L ++ M) = procLines st0 (L ++ M) := by
  have hp : ((L.takeWhile fun l => !isBestLine l).any panicsLine) = false := by
    by_contra hh
    rw [Bool.not_eq_false] at hh
    rw [(procLines_eq_none_iff st0 L).mpr hh] at h
    exact absurd h (by simp)
  by_cases hdl : (L.dropWhile fun l => !isBestLine l) = []
  · have hall := all_of_dropWhile_nil hdl
    have htkL := takeWhile_of_dropWhile_nil hdl
    have hLany : L.any panicsLine = false := by rw [← htkL]; exact hp
    simp only [procLines, hp, Bool.false_eq_true, if_false, hdl, List.head?_nil] at h
    have hrec := Option.some.inj h
    subst hrec
    simp only [procLines, takeWhile_append_all hall M, dropWhile_append_all hall M,
      List.any_append, List.filterMap_append, hLany, Bool.false_or, htkL]
    cases hany : ((M.takeWhile fun l => !isBestLine l).any panicsLine) with
    | true => simp [hany]
    | false =>
      simp only [hany, Bool.false_eq_true, if_false]
      rw [getD_getLast?_append_absorb, getD_getLast?_append_absorb]
  · obtain ⟨lb, tl, hcons⟩ : ∃ lb tl, (L.dropWhile fun l => !isBestLine l) = lb :: tl := by
      cases hx : (L.dropWhile fun l => !isBestLine l) with
      | nil => exact absurd hx hdl
      | cons lb tl => exact ⟨lb, tl, rfl⟩
    simp only [procLines, hp, Bool.false_eq_true, if_false, hcons, List.head?_cons] at h
    have hrec := Option.some.inj h
    subst hrec
    simp only [procLines, takeWhile_append_stop hdl M, dropWhile_append_stop hdl M,
      hcons, List.cons_append, List.head?_cons, hp, Bool.false_eq_true, if_false]
    rw [getD_getD_self, getD_getD_self]

/-! ## Chunk-boundary invariance at line boundaries -/

/-- `runSession` is `finishOutcome` after the read loop. -/
theorem runSession_eq_finish (chunks : List (List Char)) :
    runSession chunks = finishOutcome (runChunks initSt [] chunks) := by
  unfold runSession finishOutcome
  cases runChunks initSt [] chunks with
  | none => rfl
  | some p => obtain ⟨st, o⟩ := p; rfl

/-- Feeding one chunk is the `oneShot` outcome. -/
theorem runSession_single (X : List Char) : runSession [X] = oneShot X := by
  rw [runSession_eq_finish]
  unfold runChunks oneShot
  by_cases hX : X.isEmpty
  · have : X = [] := List.isEmpty_iff.mp hX
    subst this
    rfl
  · have hX' : X.isEmpty = false := by
      cases hb : X.isEmpty
      · rfl
      · exact absurd hb hX
    simp only [hX', Bool.false_eq_true, if_false, List.nil_append]
    cases hf : foldLines initSt (linesOf X) with
    | none => rfl
    | some st =>
      cases hbm : st.bestMove with
      | some m => simp [finishOutcome, hbm]
      | none => simp [finishOutcome, runChunks, hbm]

/-- The read loop on line-aligned chunks, against the one-chunk run of all
the data seen so far plus the remaining chunks. -/
theorem runChunks_line_aligned :
    ∀ (cs : List (List Char)) (st : LoopSt) (O : List Char),
      (∀ c ∈ cs, c.getLast? = some '\n') →
      (O = [] ∨ O.getLast? = some '\n') →
      foldLines initSt (linesOf O) = some st →
      st.bestMove = none →
      finishOutcome (runChunks st O cs) = oneShot (O ++ cs.flatten) := by
  intro cs
  induction cs with
  | nil =>
    intro st O _ _ hfold hbm
    simp only [runChunks, List.flatten_nil, List.append_nil]
    rw [oneShot, hfold]
    simp [finishOutcome, hbm]
  | cons c cs ih =>
    intro st O hcs hO hfold hbm
    have hc : c.getLast? = some '\n' := hcs c (by simp)
    have hcne : c ≠ [] := by
      intro h
      subst h
      simp at hc
    have hcE : c.isEmpty = false := by
      cases hb : c.isEmpty
      · rfl
      · exact absurd (List.isEmpty_iff.mp hb) hcne
    have hOc : (O ++ c).getLast? = some '\n' := by
      rw [List.getLast?_append, hc]
      rfl
    have hlines : linesOf (O ++ c) = linesOf O ++ linesOf c := by
      cases hO with
      | inl h =>
        subst h
        simp [show linesOf ([] : List Char) = [] from rfl]
      | inr h => exact linesOf_append c h
    rw [runChunks]
    simp only [hcE, Bool.false_eq_true, if_false]
    have habs : foldLines st (linesOf (O ++ c)) = foldLines initSt (linesOf (O ++ c)) := by
      rw [foldLines_eq, foldLines_eq, hlines]
      refine procLines_absorb initSt st (linesOf O) (linesOf c) ?_
      rw [← foldLines_eq]
      exact hfold
    rw [habs]
    have hflat : O ++ (c :: cs).flatten = (O ++ c) ++ cs.flatten := by
      rw [List.flatten_cons, List.append_assoc]
    cases hf : foldLines initSt (linesOf (O ++ c)) with
    | none =>
      rw [hflat, oneShot]
      have hpan : procLines initSt (linesOf (O ++ c)) = none := by
        rw [← foldLines_eq]
        exact hf
      have : foldLines initSt (linesOf ((O ++ c) ++ cs.flatten)) = none := by
        rw [foldLines_eq, linesOf_append _ hOc]
        exact procLines_panic_ext hpan initSt (linesOf cs.flatten)
      rw [this]
      rfl
    | some st' =>
      cases hbm' : st'.bestMove with
      | some m =>
        have hsome : st'.bestMove.isSome = true := by rw [hbm']; rfl
        simp only [hsome, if_true]
        rw [hflat, oneShot]
        have : foldLines initSt (linesOf ((O ++ c) ++ cs.flatten)) = some st' := by
          rw [foldLines_eq, linesOf_append _ hOc]
          refine procLines_brk_ext rfl ?_ hsome (linesOf cs.flatten)
          rw [← foldLines_eq]
          exact hf
        rw [this]
        simp [finishOutcome, hbm']
      | none =>
        have hsome : st'.bestMove.isSome = false := by rw [hbm']; rfl
        simp only [hsome, Bool.false_eq_true, if_false]
        rw [hflat]
        exact ih st' (O ++ c) (fun x hx => hcs x (by simp [hx])) (Or.inr hOc) hf hbm'

/-! ## Transcripts given as a list of lines -/

/-- `splitNl` of a newline-free line followed by a newline and a rest. -/
theorem splitNl_line {l : List Char} (h : '\n' ∉ l) (rest : List Char) :
    splitNl (l ++ '\n' :: rest) = l :: splitNl rest := by
  induction l with
  | nil => exact splitNl_cons_newline rest
  | cons c cs ih =>
    have hc : c ≠ '\n' := fun hh => h (by simp [hh])
    have ihr := ih (fun hh => h (by simp [hh]))
    rw [List.cons_append, splitNl_cons_other hc _ ihr]

/-- Lines of a single newline-terminated clean line. -/
theorem linesOf_single {l : List Char} (h : '\n' ∉ l)
    (hr : l.getLast? ≠ some '\r') : linesOf (l ++ ['\n']) = [l] := by
  have hsp : splitNl (l ++ ['\n']) = [l, []] := by
    have := splitNl_line h ([] : List Char)
    simpa using this
  rw [linesOf, hsp]
  simp only [List.dropLast_cons_of_ne_nil (by simp : ([[]] : List (List Char)) ≠ []),
    List.dropLast_single]
  have hst : stripCr l = l := by
    rw [stripCr, if_neg hr]
  simp [hst]

/-- Lines of a joined transcript of clean lines are the lines themselves. -/
theorem linesOf_join :
    ∀ {L : List (List Char)},
      (∀ l ∈ L, '\n' ∉ l ∧ l.getLast? ≠ some '\r') →
      linesOf (joinLines L) = L := by
  intro L
  induction L with
  | nil => intro _; rfl
  | cons l L ih =>
    intro h
    obtain ⟨hn, hr⟩ := h l (by simp)
    have hL := ih (fun x hx => h x (by simp [hx]))
    have hend : (l ++ ['\n']).getLast? = some '\n' := List.getLast?_concat l
    have : joinLines (l :: L) = (l ++ ['\n']) ++ joinLines L := by
      rw [joinLines, List.map_cons, List.flatten_cons]
      rfl
    rw [this, linesOf_append _ hend, linesOf_single hn hr, hL, List.singleton_append]

/-- The session on a one-chunk transcript of clean non-`bestmove` lines
followed by one `bestmove` line: the decision is the decoded best move with
the last assigned evaluation and pv, or the `expect` panic when the
`bestmove` token does not decode. -/
theorem oneShot_join (pre : List (List Char)) (bl : List Char)
    (hpre : ∀ l ∈ pre,
      isBestLine l = false ∧ panicsLine l = false ∧ '\n' ∉ l ∧ l.getLast? ≠ some '\r')
    (hbl : isBestLine bl = true) (hbln : '\n' ∉ bl) (hblr : bl.getLast? ≠ some '\r') :
    oneShot (joinLines (pre ++ [bl])) =
      match bmOf bl with
      | some m =>
        .ok m (((pre.filterMap evaOf).getLast?).getD [])
          (((pre.filterMap pvValOf).getLast?).getD [])
      | none => .panicNoBestMove := by
  have hclean : ∀ l ∈ pre ++ [bl], '\n' ∉ l ∧ l.getLast? ≠ some '\r' := by
    intro l hl
    rcases List.mem_append.mp hl with hl | hl
    · exact ⟨(hpre l hl).2.2.1, (hpre l hl).2.2.2⟩
    · rcases List.mem_singleton.mp hl with rfl
      exact ⟨hbln, hblr⟩
  have hlines : linesOf (joinLines (pre ++ [bl])) = pre ++ [bl] := linesOf_join hclean
  have hallpre : ∀ x ∈ pre, (fun l => !isBestLine l) x = true := by
    intro x hx
    simp [(hpre x hx).1]
  have htk : ((pre ++ [bl]).takeWhile fun l => !isBestLine l) = pre := by
    rw [takeWhile_append_all hallpre [bl], List.takeWhile_cons_of_neg (by simp [hbl])]
    simp
  have hdw : ((pre ++ [bl]).dropWhile fun l => !isBestLine l) = [bl] := by
    rw [dropWhile_append_all hallpre [bl], List.dropWhile_cons_of_neg (by simp [hbl])]
  have hnopanic : pre.any panicsLine = false :=
    List.any_eq_false.mpr (fun x hx => by simp [(hpre x hx).2.1])
  rw [oneShot, hlines, foldLines_eq]
  simp only [procLines, htk, hdw, hnopanic, Bool.false_eq_true, if_false, List.head?_cons]
  cases hbm : bmOf bl with
  | some m => rfl
  | none => rfl

/-! ## Codec round trip -/

/-- `ChessMove::from_str` on a four-character token of two valid squares. -/
theorem fromStr_cons_four {a b c d : Char} {s t : Square}
    (h1 : squareFromChars [a, b] = some s) (h2 : squareFromChars [c, d] = some t) :
    ChessMove.fromStr [a, b, c, d] = some ⟨s, t, none⟩ := by
  rw [ChessMove.fromStr]
  rw [show [a, b, c, d].take 2 = [a, b] from rfl,
    show ([a, b, c, d].drop 2).take 2 = [c, d] from rfl, h1, h2]
  rfl

/-- `ChessMove::from_str` on a five-character token of two valid squares and
a promotion letter. -/
theorem fromStr_cons_five {a b c d e : Char} {s t : Square} {p : Piece}
    (h1 : squareFromChars [a, b] = some s) (h2 : squareFromChars [c, d] = some t)
    (hp : (e = 'q' ∧ p = .queen) ∨ (e = 'r' ∧ p = .rook) ∨
          (e = 'n' ∧ p = .knight) ∨ (e = 'b' ∧ p = .bishop)) :
    ChessMove.fromStr [a, b, c, d, e] = some ⟨s, t, some p⟩ := by
  rw [ChessMove.fromStr]
  rw [show [a, b, c, d, e].take 2 = [a, b] from rfl,
    show ([a, b, c, d, e].drop 2).take 2 = [c, d] from rfl, h1, h2]
  rcases hp with ⟨rfl, rfl⟩ | ⟨rfl, rfl⟩ | ⟨rfl, rfl⟩ | ⟨rfl, rfl⟩ <;> rfl

/-! ## Claims -/

/-- Claim C1, as stated, is false: on the output stream `bestmove (none)\n`
the session does not return `ErrorKind::NoLegalMove` as a typed result — the
code has no typed error channel at all; `best_move` stays `None`, the loop
reads until the stream closes, and `best_move.expect("No best move found")`
panics, aborting the task. -/
theorem C1_counterexample :
    runSession [str "bestmove (none)\n"] = .panicNoBestMove := by decide

/-- Claim C1 (amended): for an output stream of panic-free non-`bestmove`
lines terminated by `bestmove (none)`, no move is decoded; the session ends
in the `expect("No best move found")` panic — not in a typed
`ErrorKind::NoLegalMove` result. -/
theorem C1_none_bestmove_panics (pre : List (List Char))
    (hpre : ∀ l ∈ pre, isBestLine l = false ∧ panicsLine l = false ∧
      '\n' ∉ l ∧ l.getLast? ≠ some '\r') :
    runSession [joinLines (pre ++ [str "bestmove (none)"])] = .panicNoBestMove := by
  rw [runSession_single,
    oneShot_join pre _ hpre (by decide) (by decide) (by decide),
    show bmOf (str "bestmove (none)") = none from by decide]

/-- Witness for the amended claim C1 at a concrete prior `info` line. -/
theorem C1_none_bestmove_panics_witness :
    (∀ l ∈ [str "info depth 1 score cp 13"], isBestLine l = false ∧
      panicsLine l = false ∧ '\n' ∉ l ∧ l.getLast? ≠ some '\r') ∧
    runSession [joinLines ([str "info depth 1 score cp 13"] ++ [str "bestmove (none)"])] =
      .panicNoBestMove :=
  ⟨by decide, C1_none_bestmove_panics _ (by decide)⟩

/-- Claim C2, as stated, is false: a chunk boundary splitting the promotion
token of the terminal line (`"bestmove e7e8"` then `"q\n"`) makes the
partial-line re-parse decode `e7e8` — a valid move — and terminate the
session early, so the decision differs from the one-chunk run, which
decodes the full `e7e8q` with its queen promotion. -/
theorem C2_counterexample :
    runSession [str "bestmove e7e8", str "q\n"] =
      .ok ⟨⟨4, 6⟩, ⟨4, 7⟩, none⟩ [] [] ∧
    runSession [str "bestmove e7e8q\n"] =
      .ok ⟨⟨4, 6⟩, ⟨4, 7⟩, some .queen⟩ [] [] := by
  constructor
  · decide
  · decide

/-- Claim C2 (amended): chunk boundaries that fall on line boundaries (every
chunk newline-terminated) never change the outcome — feeding the chunks in
order yields exactly the outcome of feeding the concatenation as one chunk.
Mid-line splits can change the decision (see the counterexample). -/
theorem C2_line_aligned_invariance (cs : List (List Char))
    (h : ∀ c ∈ cs, c.getLast? = some '\n') :
    runSession cs = runSession [cs.flatten] := by
  rw [runSession_eq_finish, runSession_single]
  have hmain := runChunks_line_aligned cs initSt [] h (Or.inl rfl) rfl rfl
  rw [hmain, List.nil_append]

/-- Witness for the amended claim C2 on a two-line transcript split at the
line boundary. -/
theorem C2_line_aligned_invariance_witness :
    (∀ c ∈ [str "info score cp 7\n", str "bestmove e2e4\n"],
      c.getLast? = some '\n') ∧
    runSession [str "info score cp 7\n", str "bestmove e2e4\n"] =
      runSession [List.flatten [str "info score cp 7\n", str "bestmove e2e4\n"]] :=
  ⟨by decide, C2_line_aligned_invariance _ (by decide)⟩

/-- Claim C3, as stated, is false: `info score mate 3` is a scored `info`
line in the spec's sense, yet the session delivers an empty evaluation
string for it — the score block only looks for the substring `"score cp"`,
so `score mate <N>` lines are silently dropped. -/
theorem C3_counterexample :
    specScoredInfoLine (str "info score mate 3") = true ∧
    runSession [str "info score mate 3\nbestmove e2e4\n"] =
      .ok ⟨⟨4, 1⟩, ⟨4, 3⟩, none⟩ [] [] := by
  constructor
  · decide
  · decide

/-- Claim C3 (amended): only lines containing the substring `"score cp"`
produce an evaluation report; any line without it — in particular every
`score mate <N>` line — leaves the evaluation untouched, while a
`score cp <N>` line does produce a report. -/
theorem C3_only_cp_scored (st : LoopSt) (l : List Char)
    (h : findSub (str "score cp") l = none) :
    scoreStep st l = st ∧
    scoreStep st (str "info score mate 3") = st ∧
    evaOf (str "info score cp 35") = some (str "Evaluation: 35") := by
  refine ⟨?_, ?_, by decide⟩
  · rw [scoreStep, h]
  · rw [scoreStep, show findSub (str "score cp") (str "info score mate 3") = none from by decide]

/-- Witness for the amended claim C3 at the `readyok` line. -/
theorem C3_only_cp_scored_witness :
    findSub (str "score cp") (str "readyok") = none ∧
    scoreStep initSt (str "readyok") = initSt :=
  ⟨by decide, (C3_only_cp_scored initSt (str "readyok") (by decide)).1⟩

/-- Claim C4, as stated, is false: `info score cp 10` and
`info score mate 2` are both scored `info` lines in the spec's sense, yet
the session's final evaluation is `Evaluation: 10` — the score of the
earlier line, because the later `score mate` line never replaces it. -/
theorem C4_counterexample :
    specScoredInfoLine (str "info score cp 10") = true ∧
    specScoredInfoLine (str "info score mate 2") = true ∧
    runSession [str "info score cp 10\ninfo score mate 2\nbestmove e2e4\n"] =
      .ok ⟨⟨4, 1⟩, ⟨4, 3⟩, none⟩ (str "Evaluation: 10") [] := by
  refine ⟨by decide, by decide, by decide⟩

/-- Claim C4 (amended): among the lines that assign an evaluation — the
`info` lines whose text contains the substring `"score cp"` with a token
after the first `cp` token — the last one wins wholesale: the session's
final evaluation string is exactly the one computed from that line, never a
merge. `score mate` lines do not participate. -/
theorem C4_last_scorecp_wins (pre : List (List Char)) (bl : List Char)
    (m : ChessMove) (e : List Char)
    (hpre : ∀ l ∈ pre, isBestLine l = false ∧ panicsLine l = false ∧
      '\n' ∉ l ∧ l.getLast? ≠ some '\r')
    (hbl : isBestLine bl = true) (hbln : '\n' ∉ bl) (hblr : bl.getLast? ≠ some '\r')
    (hm : bmOf bl = some m)
    (h2 : 2 ≤ (pre.filterMap evaOf).length)
    (hlast : (pre.filterMap evaOf).getLast? = some e) :
    runSession [joinLines (pre ++ [bl])] =
      .ok m e (((pre.filterMap pvValOf).getLast?).getD []) := by
  rw [runSession_single, oneShot_join pre bl hpre hbl hbln hblr]
  simp only [hm, hlast, Option.getD_some]

/-- Witness for the amended claim C4 on two scored lines. -/
theorem C4_last_scorecp_wins_witness :
    2 ≤ ([str "info score cp 10", str "info score cp 25"].filterMap evaOf).length ∧
    ([str "info score cp 10", str "info score cp 25"].filterMap evaOf).getLast? =
      some (str "Evaluation: 25") ∧
    runSession [joinLines ([str "info score cp 10", str "info score cp 25"] ++
        [str "bestmove e2e4"])] =
      .ok ⟨⟨4, 1⟩, ⟨4, 3⟩, none⟩ (str "Evaluation: 25") [] :=
  ⟨by decide, by decide,
    C4_last_scorecp_wins _ _ _ _ (by decide) (by decide) (by decide) (by decide)
      (by decide) (by decide) (by decide)⟩

/-- Claim C5, as stated, is false: this transcript has two `info` lines with
a pv section — `info pv e2e4 e7e5` and `info pv d2d4`, the last of them with
move list `[d2d4]` — but the following line `info multipv 1 score cp 3`,
which has no `pv` token and hence no pv section, still matches the code's
substring search (`"pv"` inside `multipv`) and replaces the principal
variation with the (empty) decodable-token list after the occurrence, so
the session's final pv is `[]` and not the last pv section's `[d2d4]`. -/
theorem C5_counterexample :
    specPvSectionLine (str "info pv e2e4 e7e5") = true ∧
    specPvSectionLine (str "info pv d2d4") = true ∧
    specPvSectionLine (str "info multipv 1 score cp 3") = false ∧
    specPvMoves (str "info pv d2d4") = [⟨⟨3, 1⟩, ⟨3, 3⟩, none⟩] ∧
    runSession
        [str "info pv e2e4 e7e5\ninfo pv d2d4\ninfo multipv 1 score cp 3\nbestmove d2d4\n"] =
      .ok ⟨⟨3, 1⟩, ⟨3, 3⟩, none⟩ (str "Evaluation: 3") [] := by
  refine ⟨by decide, by decide, by decide, by decide, by decide⟩

/-- Claim C5 (amended): among the `info` lines whose text contains the
substring `"pv"` anywhere (also inside tokens such as `multipv`), the last
one wins wholesale: the session's final principal variation is exactly the
decodable tokens after that line's first `"pv"` occurrence, never an
append. -/
theorem C5_last_pv_substring_wins (pre : List (List Char)) (bl : List Char)
    (m : ChessMove) (pv : List ChessMove)
    (hpre : ∀ l ∈ pre, isBestLine l = false ∧ panicsLine l = false ∧
      '\n' ∉ l ∧ l.getLast? ≠ some '\r')
    (hbl : isBestLine bl = true) (hbln : '\n' ∉ bl) (hblr : bl.getLast? ≠ some '\r')
    (hm : bmOf bl = some m)
    (h2 : 2 ≤ (pre.filterMap pvValOf).length)
    (hlast : (pre.filterMap pvValOf).getLast? = some pv) :
    runSession [joinLines (pre ++ [bl])] =
      .ok m (((pre.filterMap evaOf).getLast?).getD []) pv := by
  rw [runSession_single, oneShot_join pre bl hpre hbl hbln hblr]
  simp only [hm, hlast, Option.getD_some]

/-- Witness for the amended claim C5 on two pv-bearing lines: the later,
shorter pv replaces the earlier one in full. -/
theorem C5_last_pv_substring_wins_witness :
    2 ≤ ([str "info pv e2e4 e7e5", str "info pv d2d4"].filterMap pvValOf).length ∧
    ([str "info pv e2e4 e7e5", str "info pv d2d4"].filterMap pvValOf).getLast? =
      some [⟨⟨3, 1⟩, ⟨3, 3⟩, none⟩] ∧
    runSession [joinLines ([str "info pv e2e4 e7e5", str "info pv d2d4"] ++
        [str "bestmove d2d4"])] =
      .ok ⟨⟨3, 1⟩, ⟨3, 3⟩, none⟩ [] [⟨⟨3, 1⟩, ⟨3, 3⟩, none⟩] :=
  ⟨by decide, by decide,
    C5_last_pv_substring_wins _ _ _ _ (by decide) (by decide) (by decide) (by decide)
      (by decide) (by decide) (by decide)⟩

/-- Claim C6, as stated, is false: in `info lowerbound score cp 5` the token
`lowerbound` does not appear after the score, so the claim's rule gives the
qualifier `exact`; the code checks membership anywhere in the line and
produces `Evaluation: ≥5` — the at-least qualifier. -/
theorem C6_counterexample :
    specBoundAfterScore (str "info lowerbound score cp 5") = .exact ∧
    runSession [str "info lowerbound score cp 5\nbestmove e2e4\n"] =
      .ok ⟨⟨4, 1⟩, ⟨4, 3⟩, none⟩ (str "Evaluation: ≥5") [] := by
  refine ⟨by decide, by decide⟩

/-- Claim C6 (amended): the bound qualifier is determined by membership of
the tokens anywhere in the line — at-least when `lowerbound` occurs among
the tokens, at-most when `upperbound` occurs (and `lowerbound` does not),
exact otherwise; in particular the Scenario E line
`info score cp -120 upperbound pv d2d4` yields bound at-most with value
`-120`. -/
theorem C6_bound_membership (st : LoopSt) (l : List Char)
    (i cpIdx : Nat) (cp : List Char)
    (h1 : findSub (str "score cp") l = some i)
    (h2 : position (str "cp") (splitWs l) = some cpIdx)
    (h3 : (splitWs l)[cpIdx + 1]? = some cp) :
    (scoreStep st l).evaluation =
      str "Evaluation: " ++ boundChars (boundOfTokens (splitWs l)) ++ cp ∧
    runSession [str "info score cp -120 upperbound pv d2d4\nbestmove d2d4\n"] =
      .ok ⟨⟨3, 1⟩, ⟨3, 3⟩, none⟩ (str "Evaluation: ≤-120")
        [⟨⟨3, 1⟩, ⟨3, 3⟩, none⟩] := by
  constructor
  · simp only [scoreStep, h1, h2, h3]
    by_cases hlb : str "lowerbound" ∈ splitWs l
    · simp [boundOfTokens, boundChars, hlb]
    · by_cases hub : str "upperbound" ∈ splitWs l
      · simp [boundOfTokens, boundChars, hlb, hub]
      · simp [boundOfTokens, boundChars, hlb, hub]
  · decide

/-- Witness for the amended claim C6 at the Scenario E line. -/
theorem C6_bound_membership_witness :
    position (str "cp") (splitWs (str "info score cp -120 upperbound pv d2d4")) =
      some 2 ∧
    (scoreStep initSt (str "info score cp -120 upperbound pv d2d4")).evaluation =
      str "Evaluation: " ++
        boundChars (boundOfTokens (splitWs (str "info score cp -120 upperbound pv d2d4"))) ++
        str "-120" :=
  ⟨by decide,
    (C6_bound_membership initSt _ 5 2 _ (by decide) (by decide) (by decide)).1⟩

/-- Claim C7: for every valid move — promotion absent or among the letters
`q`, `r`, `b`, `n` — decoding the encoding returns the move:
`from_str (to_string m) = Ok m`. -/
theorem C7_decode_encode (m : ChessMove)
    (h : m.promotion = none ∨ m.promotion = some .queen ∨ m.promotion = some .rook ∨
         m.promotion = some .bishop ∨ m.promotion = some .knight) :
    ChessMove.fromStr m.toUci = some m := by
  obtain ⟨s, t, promo⟩ := m
  dsimp only at h
  rcases h with rfl | rfl | rfl | rfl | rfl
  · exact fromStr_cons_four (squareFromChars_toUci s) (squareFromChars_toUci t)
  · exact fromStr_cons_five (squareFromChars_toUci s) (squareFromChars_toUci t)
      (Or.inl ⟨rfl, rfl⟩)
  · exact fromStr_cons_five (squareFromChars_toUci s) (squareFromChars_toUci t)
      (Or.inr (Or.inl ⟨rfl, rfl⟩))
  · exact fromStr_cons_five (squareFromChars_toUci s) (squareFromChars_toUci t)
      (Or.inr (Or.inr (Or.inr ⟨rfl, rfl⟩)))
  · exact fromStr_cons_five (squareFromChars_toUci s) (squareFromChars_toUci t)
      (Or.inr (Or.inr (Or.inl ⟨rfl, rfl⟩)))

/-- Witness for claim C7 at the promoting move `e7e8q`. -/
theorem C7_decode_encode_witness :
    ((⟨⟨4, 6⟩, ⟨4, 7⟩, some .queen⟩ : ChessMove).promotion = none ∨
     (⟨⟨4, 6⟩, ⟨4, 7⟩, some .queen⟩ : ChessMove).promotion = some .queen ∨
     (⟨⟨4, 6⟩, ⟨4, 7⟩, some .queen⟩ : ChessMove).promotion = some .rook ∨
     (⟨⟨4, 6⟩, ⟨4, 7⟩, some .queen⟩ : ChessMove).promotion = some .bishop ∨
     (⟨⟨4, 6⟩, ⟨4, 7⟩, some .queen⟩ : ChessMove).promotion = some .knight) ∧
    ChessMove.fromStr (ChessMove.toUci ⟨⟨4, 6⟩, ⟨4, 7⟩, some .queen⟩) =
      some ⟨⟨4, 6⟩, ⟨4, 7⟩, some .queen⟩ :=
  ⟨by decide, C7_decode_encode _ (by decide)⟩

/-- Every event the read loop emits is a read. -/
theorem readEvents_reads :
    ∀ (cs : List (List Char)) (st : LoopSt) (o : List Char),
      ∀ e ∈ readEvents st o cs, isReadEvent e = true := by
  intro cs
  induction cs with
  | nil =>
    intro st o e he
    exact absurd he (by simp [readEvents])
  | cons c cs ih =>
    intro st o e he
    rw [readEvents] at he
    rcases List.mem_cons.mp he with rfl | he'
    · rfl
    · by_cases hc : c.isEmpty = true
      · rw [if_pos hc] at he'
        exact absurd he' (by simp)
      · rw [if_neg hc] at he'
        cases hf : foldLines st (linesOf (o ++ c)) with
        | none =>
          simp only [hf] at he'
          exact absurd he' (by simp)
        | some st' =>
          simp only [hf] at he'
          by_cases hs : st'.bestMove.isSome = true
          · rw [if_pos hs] at he'
            exact absurd he' (by simp)
          · rw [if_neg hs] at he'
            exact ih st' (o ++ c) e he'

/-- Claim C8: the startup protocol is delivered as the trace spawn, a single
write of the whole command string, a flush, and then only reads; and the
command string is exactly the eight commands `uci`, `isready`,
`ucinewgame`, `position fen <FEN>`, the three `setoption`s and
`go movetime 5000`, in that order, each newline-terminated. -/
theorem C8_startup_protocol (fen : List Char) (chunks : List (List Char))
    (hn : '\n' ∉ fen) (hr : '\r' ∉ fen) :
    sessionTrace fen chunks =
      [.spawnProc, .writeStdin (startupCommands fen), .flushStdin] ++
        readEvents initSt [] chunks ∧
    (∀ e ∈ readEvents initSt [] chunks, isReadEvent e = true) ∧
    linesOf (startupCommands fen) =
      [str "uci", str "isready", str "ucinewgame", str "position fen " ++ fen,
       str "setoption name Skill Level value 20",
       str "setoption name Contempt value 100",
       str "setoption name UCI_LimitStrength value false",
       str "go movetime 5000"] := by
  refine ⟨rfl, readEvents_reads _ _ _, ?_⟩
  have hsplitA : str "uci\nisready\nucinewgame\nposition fen " =
      str "uci\nisready\nucinewgame\n" ++ str "position fen " := by decide
  have hsplitB :
      str "\nsetoption name Skill Level value 20\nsetoption name Contempt value 100\nsetoption name UCI_LimitStrength value false\ngo movetime 5000\n" =
      ['\n'] ++
        str "setoption name Skill Level value 20\nsetoption name Contempt value 100\nsetoption name UCI_LimitStrength value false\ngo movetime 5000\n" := by
    decide
  have hgroup : startupCommands fen =
      str "uci\nisready\nucinewgame\n" ++
        (((str "position fen " ++ fen) ++ ['\n']) ++
          str "setoption name Skill Level value 20\nsetoption name Contempt value 100\nsetoption name UCI_LimitStrength value false\ngo movetime 5000\n") := by
    rw [startupCommands, hsplitA, hsplitB]
    simp [List.append_assoc]
  have h4n : '\n' ∉ str "position fen " ++ fen := by
    intro hmem
    rcases List.mem_append.mp hmem with hmem | hmem
    · exact absurd hmem (by decide)
    · exact hn hmem
  have h4r : (str "position fen " ++ fen).getLast? ≠ some '\r' := by
    intro hh
    rcases List.mem_append.mp (List.mem_of_getLast?_eq_some hh) with hmem | hmem
    · exact absurd hmem (by decide)
    · exact hr hmem
  rw [hgroup, linesOf_append _ (by decide),
    linesOf_append _ (List.getLast?_concat (str "position fen " ++ fen)),
    linesOf_single h4n h4r,
    show linesOf (str "uci\nisready\nucinewgame\n") =
      [str "uci", str "isready", str "ucinewgame"] from by decide,
    show linesOf
        (str "setoption name Skill Level value 20\nsetoption name Contempt value 100\nsetoption name UCI_LimitStrength value false\ngo movetime 5000\n") =
      [str "setoption name Skill Level value 20",
       str "setoption name Contempt value 100",
       str "setoption name UCI_LimitStrength value false",
       str "go movetime 5000"] from by decide]
  rfl

/-- Witness for claim C8 at the standard starting position's FEN. -/
theorem C8_startup_protocol_witness :
    ('\n' ∉ str "rnbqkbnr/pppppppp/8/8/8/8/PPPPPPPP/RNBQKBNR w KQkq - 0 1") ∧
    linesOf (startupCommands
        (str "rnbqkbnr/pppppppp/8/8/8/8/PPPPPPPP/RNBQKBNR w KQkq - 0 1")) =
      [str "uci", str "isready", str "ucinewgame",
       str "position fen " ++ str "rnbqkbnr/pppppppp/8/8/8/8/PPPPPPPP/RNBQKBNR w KQkq - 0 1",
       str "setoption name Skill Level value 20",
       str "setoption name Contempt value 100",
       str "setoption name UCI_LimitStrength value false",
       str "go movetime 5000"] :=
  ⟨by decide,
    (C8_startup_protocol _ [] (by decide) (by decide)).2.2⟩

/-- Claim C9, as stated, is false in its last conjunct: when the rules
engine rejects the engine's move, `update` does not crash and leaves the
game state unchanged — but it surfaces no user-visible error at all: the
whole application state, including the status text (still
"Stockfish is thinking...") and the evaluation text, is returned
bit-for-bit unchanged, with no command. -/
theorem C9_counterexample :
    ChessApp.update rejectAll sampleApp
        (.engineMove ⟨⟨4, 1⟩, ⟨4, 3⟩, none⟩ (str "Evaluation: 35") []) =
      (sampleApp, .idle) ∧
    sampleApp.status = str "Stockfish is thinking..." :=
  ⟨rfl, rfl⟩

/-- Claim C9 (amended): when the rules engine rejects the engine's proposed
move, `update` does not crash and does not apply the move — the returned
state is the input state, unchanged in every field — and the decline is
silent: no user-visible error is surfaced, no command is issued. -/
theorem C9_silent_decline {G : Type} (re : RulesEngine G) (app : ChessApp G)
    (mv : ChessMove) (e : List Char) (pv : List ChessMove)
    (hres : re.result app.game = none)
    (hrej : re.makeMove app.game mv = none) :
    ChessApp.update re app (.engineMove mv e pv) = (app, .idle) := by
  simp [ChessApp.update, hres, hrej]

/-- Witness for the amended claim C9 at a concrete rejecting rules engine. -/
theorem C9_silent_decline_witness :
    rejectAll.result sampleApp.game = none ∧
    ChessApp.update rejectAll sampleApp
        (.engineMove ⟨⟨4, 1⟩, ⟨4, 3⟩, none⟩ [] []) = (sampleApp, .idle) :=
  ⟨rfl, C9_silent_decline rejectAll sampleApp _ [] [] rfl rfl⟩

/-- Claim C10: when the game has concluded (`result` is `Some`), `update`
returns with every field of the application state unchanged and no command,
for every message — no further moves, engine sessions, or resets occur. -/
theorem C10_concluded_fixed_point {G : Type} (re : RulesEngine G)
    (app : ChessApp G) (msg : Message)
    (h : (re.result app.game).isSome = true) :
    ChessApp.update re app msg = (app, .idle) := by
  simp [ChessApp.update, h]

/-- Witness for claim C10: a concluded game ignores even `NewGame`. -/
theorem C10_concluded_fixed_point_witness :
    (concludedRE.result sampleApp.game).isSome = true ∧
    ChessApp.update concludedRE sampleApp .newGame = (sampleApp, .idle) :=
  ⟨rfl, C10_concluded_fixed_point concludedRE sampleApp .newGame rfl⟩

end ChessGui
